import Mathlib

/-!
Shallow embedding of danimatuko/linkedin-jobs-scraper (src/scraper.js).

Text is modelled as List Char.  The description normalization chain
  .replace(/\s+/g, " ").replace(/\b(Show more|Show less)\b/g, "").trim()
is modelled by collapseWs, removeTokens and trimWs below, each a faithful
left-to-right rendering of the corresponding JavaScript regex replace / trim.
-/

namespace Scraper

/-- Code point of a character (used for the character-class tests). -/
def cp (c : Char) : Nat := c.toNat

/-- JavaScript regex \s character class (WhiteSpace plus LineTerminator):
TAB LF VT FF CR SP NBSP OGHAM 0x2000-0x200A LS PS NNBSP MMSP IDEOGRAPHIC BOM. -/
def isWsB (c : Char) : Bool :=
  cp c == 9 || cp c == 10 || cp c == 11 || cp c == 12 || cp c == 13 ||
  cp c == 32 || cp c == 160 || cp c == 5760 ||
  (8192 ≤ cp c && cp c ≤ 8202) ||
  cp c == 8232 || cp c == 8233 || cp c == 8239 || cp c == 8287 ||
  cp c == 12288 || cp c == 65279

/-- JavaScript regex \w character class, used by the \b word-boundary test. -/
def isWordChar (c : Char) : Bool :=
  (65 ≤ cp c && cp c ≤ 90) || (97 ≤ cp c && cp c ≤ 122) ||
  (48 ≤ cp c && cp c ≤ 57) || cp c == 95

/-- One pass of .replace(/\s+/g, " "): the flag records whether the scanner
is inside a whitespace run whose first character was already replaced. -/
def collapseAux : Bool → List Char → List Char
  | _, [] => []
  | inWs, c :: rest =>
    if isWsB c then
      if inWs then collapseAux true rest
      else ' ' :: collapseAux true rest
    else c :: collapseAux false rest

/-- Models .replace(/\s+/g, " "). -/
def collapseWs (l : List Char) : List Char := collapseAux false l

/-- The two boilerplate tokens removed from descriptions. -/
def showMoreTok : List Char := "Show more".data

def showLessTok : List Char := "Show less".data

/-- beginsWith pat l: pat is a prefix of l (plain recursive prefix test). -/
def beginsWith : List Char → List Char → Bool
  | [], _ => true
  | _ :: _, [] => false
  | p :: ps, c :: cs => p == c && beginsWith ps cs

/-- Word boundary after a token: the next character, if any, is not a word
character (both tokens end in a word character). -/
def boundaryAfterB : List Char → Bool
  | [] => true
  | c :: _ => !isWordChar c

/-- A token match starts at the head of l (the \b before the match is checked
by the caller through the previous-character flag; both tokens start with a
word character, and both have length 9). -/
def tokHere (l : List Char) : Bool :=
  (beginsWith showMoreTok l || beginsWith showLessTok l) && boundaryAfterB (l.drop 9)

/-- One pass of .replace(/\b(Show more|Show less)\b/g, ""): skip counts the
token characters still to be consumed after a match, pw records whether the
character before the current scan position is a word character (false at the
start of the string). -/
def remAux : Nat → Bool → List Char → List Char
  | _, _, [] => []
  | k + 1, pw, _ :: rest => remAux k pw rest
  | 0, pw, c :: rest =>
    if !pw && tokHere (c :: rest) then remAux 8 true rest
    else c :: remAux 0 (isWordChar c) rest

/-- Models .replace(/\b(Show more|Show less)\b/g, ""). -/
def removeTokens (l : List Char) : List Char := remAux 0 false l

/-- String.prototype.trim (both .trim() calls in the source). -/
def trimWs (l : List Char) : List Char :=
  ((l.dropWhile isWsB).reverse.dropWhile isWsB).reverse

/-- The normalization applied to job.description at lines 41-44 of
src/scraper.js: collapse whitespace, remove boilerplate tokens, trim. -/
def normalize (l : List Char) : List Char := trimWs (removeTokens (collapseWs l))

/-- Characters of a string literal. -/
def strToL (s : String) : List Char := s.data

/-- A job record: the object built key by key in scrapeJobDetails, modelled as
an association list so that key order and Object.keys semantics are kept. -/
abbrev Row := List (String × List Char)

/-- The selectors object of scrapeJobDetails (lines 25-30), in insertion
order. -/
def selectors : List (String × String) :=
  [("title", "h1.topcard__title"),
   ("company", "[href^='https://www.linkedin.com/company/']"),
   ("location", ".topcard__flavor.topcard__flavor--bullet"),
   ("description", "section.show-more-less-html")]

/-- The extraction loop (lines 37-39): for each selector, page.$eval returns
the trimmed textContent of the first matching element, or throws when no
element matches (modelled by q returning none); any throw aborts the whole
record. -/
def scrapeFields (q : String → Option (List Char)) : List (String × String) → Option Row
  | [] => some []
  | (k, sel) :: rest =>
    match q sel with
    | none => none
    | some v => (scrapeFields q rest).map (fun tail => (k, trimWs v) :: tail)

/-- job.description = normalize(job.description) (lines 41-44), an in-place
update of the description key. -/
def setDescNorm (job : Row) : Row :=
  job.map (fun kv => if kv.1 = "description" then (kv.1, normalize kv.2) else kv)

/-- scrapeJobDetails (lines 24-47): navigate (gotoOk false models a failed
page.goto, which throws), extract the four fields, then normalize the
description. -/
def scrapeJobDetails (gotoOk : Bool) (q : String → Option (List Char)) : Option Row :=
  if gotoOk then (scrapeFields q selectors).map setDescNorm else none

/-- Array.prototype.join with a one-character separator (used with "," for
cells and "\n" for rows). -/
def joinWith (sep : Char) : List (List Char) → List Char
  | [] => []
  | [x] => x
  | x :: y :: ys => x ++ sep :: joinWith sep (y :: ys)

/-- The template literal `"${row[key]}"` (line 59): a missing key reads
undefined, which the template literal stringifies as "undefined"; the value
is wrapped in double quotes with no further escaping. -/
def getField (row : Row) (key : String) : List Char :=
  (row.lookup key).getD (strToL "undefined")

/-- One cell of a data row: `"${row[key]}"`. -/
def quoteField (v : List Char) : List Char := '"' :: (v ++ ['"'])

/-- keys.join(",") (line 56): the header row. -/
def headerLine (keys : List String) : List Char :=
  joinWith ',' (keys.map String.data)

/-- values.join(",") (line 60): one data row, reading every key of the first
record from this row. -/
def rowLine (keys : List String) (row : Row) : List Char :=
  joinWith ',' (keys.map (fun k => quoteField (getField row k)))

/-- convertToCsv (lines 54-64).  Object.keys(data[0]) throws a TypeError on an
empty array (data[0] is undefined), modelled as none; otherwise the header
row and one row per record are joined with newlines. -/
def convertToCsv (data : List Row) : Option (List Char) :=
  match data with
  | [] => none
  | first :: _ =>
    some (joinWith '\n'
      (headerLine (first.map Prod.fst) :: data.map (rowLine (first.map Prod.fst))))

/-- Split a document at newline characters (the inverse view used to talk
about the lines of the exported document). -/
def splitNl : List Char → List (List Char)
  | [] => [[]]
  | c :: rest =>
    if c = '\n' then [] :: splitNl rest
    else
      match splitNl rest with
      | [] => [[c]]
      | g :: gs => (c :: g) :: gs

/-- The two-record example list of the specification (records A-D and E-H). -/
def exampleRecords : List Row :=
  [[("title", strToL "A"), ("company", strToL "B"),
    ("location", strToL "C"), ("description", strToL "D")],
   [("title", strToL "E"), ("company", strToL "F"),
    ("location", strToL "G"), ("description", strToL "H")]]

/-- An anchor element of the search-results page; isCard tells whether it
matches the a.base-card__full-link selector of line 78. -/
structure Anchor where
  isCard : Bool
  href : String

/-- page.$$eval("a.base-card__full-link", links => links.map(a => a.href))
(line 78): hrefs of the matching anchors, in document order. -/
def collectLinks (anchors : List Anchor) : List String :=
  (anchors.filter (fun a => a.isCard)).map (fun a => a.href)

/-- The external world of one run: whether the browser launches, whether the
search-page navigation succeeds, the anchors of the search-results page, the
per-URL navigation outcome, the per-URL pages (selector to first matching
textContent of the first matching element), and whether the file write succeeds. -/
structure Env where
  launchOk : Bool
  searchGotoOk : Bool
  searchAnchors : List Anchor
  detailGotoOk : String → Bool
  pageOf : String → String → Option (List Char)
  writeOk : Bool

/-- The observable outcome of one run of main. -/
structure RunResult where
  browserOpened : Bool
  browserClosed : Bool
  fileWritten : Option (List Char)
  errorLogged : Bool
  crashed : Bool

/-- The extraction loop of main (lines 81-84): sequential, aborted by the
first failing scrapeJobDetails (its rejection propagates out of main). -/
def scrapeAll (env : Env) : List String → Option (List Row)
  | [] => some []
  | link :: rest =>
    match scrapeJobDetails (env.detailGotoOk link) (env.pageOf link) with
    | none => none
    | some job => (scrapeAll env rest).map (fun jobs => job :: jobs)

/-- main (lines 69-100).  There is no try/finally around launch, navigation or
the loop: a failure there rejects the promise of main (crashed := true) and skips
browser.close().  Only convertToCsv and fs.writeFile sit inside the
try/catch, whose catch logs a diagnostic (errorLogged := true). -/
def main (env : Env) : RunResult :=
  if !env.launchOk then ⟨false, false, none, false, true⟩
  else if !env.searchGotoOk then ⟨true, false, none, false, true⟩
  else
    match scrapeAll env (collectLinks env.searchAnchors) with
    | none => ⟨true, false, none, false, true⟩
    | some jobs =>
      match convertToCsv jobs with
      | none => ⟨true, true, none, true, false⟩
      | some doc =>
        if env.writeOk then ⟨true, true, some doc, false, false⟩
        else ⟨true, true, none, true, false⟩

/-- The first character after a removed region, if any, is not a word
character (the condition under which \b keeps holding). -/
def headNonWord : List Char → Prop
  | [] => True
  | d :: _ => isWordChar d = false

/-- A string is collapsed when every whitespace character in it is a plain
space and no two whitespace characters are adjacent: exactly the strings on
which the whitespace-collapsing pass is the identity. -/
def collapsedB : List Char → Bool
  | [] => true
  | [c] => !isWsB c || c == ' '
  | c :: d :: r => (!isWsB c || c == ' ') && !(isWsB c && isWsB d) && collapsedB (d :: r)

/-! ### Character-class facts -/

theorem ws_not_word {c : Char} (h : isWsB c = true) : isWordChar c = false := by
  cases hw : isWordChar c
  · rfl
  · exfalso
    simp only [isWsB, Bool.or_eq_true, beq_iff_eq, Bool.and_eq_true,
      decide_eq_true_eq] at h
    simp only [isWordChar, Bool.or_eq_true, beq_iff_eq, Bool.and_eq_true,
      decide_eq_true_eq] at hw
    omega

theorem showMoreTok_eq : showMoreTok = ['S', 'h', 'o', 'w', ' ', 'm', 'o', 'r', 'e'] := rfl

theorem showLessTok_eq : showLessTok = ['S', 'h', 'o', 'w', ' ', 'l', 'e', 's', 's'] := rfl

theorem ws_tokHere_false {c : Char} (h : isWsB c = true) (r : List Char) :
    tokHere (c :: r) = false := by
  have hS : ('S' == c) = false := by
    cases hq : ('S' == c)
    · rfl
    · exfalso
      have hc : c = 'S' := (beq_iff_eq.mp hq).symm
      rw [hc] at h
      exact absurd h (by decide)
  simp [tokHere, showMoreTok_eq, showLessTok_eq, beginsWith, hS]

/-! ### dropWhile and takeWhile facts -/

theorem dropWhile_head_false {p : Char → Bool} :
    ∀ {l : List Char} {c : Char} {r : List Char}, l.dropWhile p = c :: r → p c = false := by
  intro l
  induction l with
  | nil => intro c r h; simp [List.dropWhile] at h
  | cons a as ih =>
    intro c r h
    by_cases hp : p a = true
    · rw [List.dropWhile_cons_of_pos hp] at h; exact ih h
    · rw [List.dropWhile_cons_of_neg hp] at h
      injection h with h1 h2
      subst h1; simpa using hp

theorem dropWhile_self_idem (p : Char → Bool) (l : List Char) :
    (l.dropWhile p).dropWhile p = l.dropWhile p := by
  cases hd : l.dropWhile p with
  | nil => rfl
  | cons c r =>
    have := dropWhile_head_false hd
    rw [List.dropWhile_cons_of_neg (by simp [this])]

/-! ### Collapsing pass facts -/

theorem collapsedB_tail {c : Char} {r : List Char} (h : collapsedB (c :: r) = true) :
    collapsedB r = true := by
  cases r with
  | nil => rfl
  | cons d r2 =>
    simp only [collapsedB, Bool.and_eq_true] at h
    exact h.2

theorem collapsedB_append_left :
    ∀ (m s : List Char), collapsedB (m ++ s) = true → collapsedB m = true
  | [], _, _ => rfl
  | [c], s, h => by
    cases s with
    | nil => simpa using h
    | cons d s2 =>
      simp only [List.cons_append, List.nil_append, collapsedB, Bool.and_eq_true] at h
      simp only [collapsedB]
      exact h.1.1
  | c :: d :: m2, s, h => by
    have h2 : collapsedB ((d :: m2) ++ s) = true := by
      simp only [List.cons_append, collapsedB, Bool.and_eq_true] at h
      simpa using h.2
    have ih := collapsedB_append_left (d :: m2) s h2
    simp only [List.cons_append, collapsedB, Bool.and_eq_true] at h ⊢
    exact ⟨h.1, ih⟩

theorem collapsedB_dropWhile {l : List Char} (p : Char → Bool) (h : collapsedB l = true) :
    collapsedB (l.dropWhile p) = true := by
  induction l with
  | nil => exact h
  | cons c r ih =>
    by_cases hp : p c = true
    · rw [List.dropWhile_cons_of_pos hp]
      exact ih (collapsedB_tail h)
    · rw [List.dropWhile_cons_of_neg hp]
      exact h

theorem collapseAux_cons_not_ws {c : Char} (h : isWsB c = false) (r : List Char) :
    collapseAux false (c :: r) = c :: collapseAux false r := by
  simp [collapseAux, h]

theorem collapseAux_true_eq (l : List Char) :
    collapseAux true l = collapseAux false (l.dropWhile isWsB) := by
  induction l with
  | nil => rfl
  | cons c r ih =>
    by_cases hw : isWsB c = true
    · rw [List.dropWhile_cons_of_pos hw]
      simpa [collapseAux, hw] using ih
    · rw [List.dropWhile_cons_of_neg hw]
      simp only [Bool.not_eq_true] at hw
      simp [collapseAux, hw]

theorem collapsedB_collapse (l : List Char) : collapsedB (collapseAux false l) = true := by
  have H : ∀ (n : Nat) (l : List Char), l.length ≤ n → collapsedB (collapseAux false l) = true := by
    intro n
    induction n with
    | zero =>
      intro l hl
      rw [List.length_eq_zero.mp (Nat.le_zero.mp hl)]
      rfl
    | succ n ih =>
      intro l hl
      match l with
      | [] => rfl
      | c :: r =>
        simp only [List.length_cons, Nat.succ_le_succ_iff] at hl
        by_cases hw : isWsB c = true
        · have hr : collapseAux false (c :: r) = ' ' :: collapseAux false (r.dropWhile isWsB) := by
            simp [collapseAux, hw, collapseAux_true_eq]
          rw [hr]
          have hcr : collapsedB (collapseAux false (r.dropWhile isWsB)) = true :=
            ih _ (Nat.le_trans ((List.dropWhile_suffix isWsB).sublist.length_le) hl)
          cases hd : r.dropWhile isWsB with
          | nil => decide
          | cons d r2 =>
            have hdw : isWsB d = false := dropWhile_head_false hd
            rw [hd, collapseAux_cons_not_ws hdw] at hcr
            rw [collapseAux_cons_not_ws hdw]
            simp only [collapsedB, Bool.and_eq_true]
            refine ⟨⟨by decide, ?_⟩, hcr⟩
            simp [hdw]
        · simp only [Bool.not_eq_true] at hw
          rw [collapseAux_cons_not_ws hw]
          have hcr : collapsedB (collapseAux false r) = true := ih _ hl
          cases he : collapseAux false r with
          | nil => simp [collapsedB, hw]
          | cons d r2 =>
            rw [he] at hcr
            simp only [collapsedB, Bool.and_eq_true]
            exact ⟨⟨by simp [hw], by simp [hw]⟩, hcr⟩
  exact H l.length l le_rfl

theorem collapse_of_collapsedB (l : List Char) (h : collapsedB l = true) :
    collapseAux false l = l := by
  induction l with
  | nil => rfl
  | cons c r ih =>
    by_cases hw : isWsB c = true
    · have hsp : c = ' ' := by
        cases r with
        | nil => simp only [collapsedB, hw, Bool.not_true, Bool.false_or, beq_iff_eq] at h; exact h
        | cons d r2 =>
          simp only [collapsedB, hw, Bool.not_true, Bool.false_or, Bool.and_eq_true,
            beq_iff_eq] at h
          exact h.1.1
      subst hsp
      have hr := collapsedB_tail h
      cases r with
      | nil => rfl
      | cons d r2 =>
        have hdw : isWsB d = false := by
          simp only [collapsedB, Bool.and_eq_true] at h
          have := h.1.2
          simp only [Bool.not_eq_true', Bool.and_eq_false_iff] at this
          rcases this with h1 | h1
          · exact absurd h1 (by decide)
          · exact h1
        have hsp2 : isWsB ' ' = true := by decide
        have h1 : collapseAux false (' ' :: d :: r2) = ' ' :: collapseAux true (d :: r2) := by
          simp [collapseAux, hsp2]
        rw [h1]
        have h2 : collapseAux true (d :: r2) = d :: collapseAux false r2 := by
          simp [collapseAux, hdw]
        have h3 := ih hr
        rw [collapseAux_cons_not_ws hdw] at h3
        rw [h2, h3]
    · simp only [Bool.not_eq_true] at hw
      rw [collapseAux_cons_not_ws hw, ih (collapsedB_tail h)]

/-! ### Trim facts -/

theorem trim_decomp (l : List Char) :
    ∃ sfx, l.dropWhile isWsB = trimWs l ++ sfx ∧ ∀ x ∈ sfx, isWsB x = true := by
  refine ⟨((l.dropWhile isWsB).reverse.takeWhile isWsB).reverse, ?_, ?_⟩
  · rw [trimWs, ← List.reverse_append, List.takeWhile_append_dropWhile, List.reverse_reverse]
  · intro x hx
    rw [List.mem_reverse] at hx
    exact List.mem_takeWhile_imp hx

theorem trim_idem (l : List Char) : trimWs (trimWs l) = trimWs l := by
  have hdv : (trimWs l).dropWhile isWsB = trimWs l := by
    cases hvv : trimWs l with
    | nil => rfl
    | cons c r =>
      have hsfx : (l.dropWhile isWsB).reverse.dropWhile isWsB <:+ (l.dropWhile isWsB).reverse :=
        List.dropWhile_suffix isWsB
      have hpre : trimWs l <+: l.dropWhile isWsB := by
        have h2 := List.reverse_prefix.mpr hsfx
        rwa [List.reverse_reverse] at h2
      obtain ⟨t, ht⟩ := hpre
      have hu : l.dropWhile isWsB = c :: (r ++ t) := by
        rw [← ht, hvv]; simp
      have hc : isWsB c = false := dropWhile_head_false hu
      rw [List.dropWhile_cons_of_neg (by simp [hc])]
  show (((trimWs l).dropWhile isWsB).reverse.dropWhile isWsB).reverse = trimWs l
  rw [hdv]
  show ((((l.dropWhile isWsB).reverse.dropWhile isWsB).reverse).reverse.dropWhile isWsB).reverse =
    trimWs l
  rw [List.reverse_reverse, dropWhile_self_idem]
  rfl

/-! ### Token-removal facts -/

theorem remAux_nil (k : Nat) (pw : Bool) : remAux k pw [] = [] := by cases k <;> rfl

theorem remAux_skip (k : Nat) (pw : Bool) (c : Char) (r : List Char) :
    remAux (k + 1) pw (c :: r) = remAux k pw r := rfl

theorem remAux_zero (pw : Bool) (c : Char) (r : List Char) :
    remAux 0 pw (c :: r) =
      if !pw && tokHere (c :: r) then remAux 8 true r
      else c :: remAux 0 (isWordChar c) r := rfl

theorem remAux_length (k : Nat) (pw : Bool) (l : List Char) :
    (remAux k pw l).length ≤ l.length := by
  induction l generalizing k pw with
  | nil => simp [remAux_nil]
  | cons c r ih =>
    cases k with
    | succ k2 =>
      rw [remAux_skip]
      exact Nat.le_succ_of_le (ih k2 pw)
    | zero =>
      rw [remAux_zero]
      by_cases hb : (!pw && tokHere (c :: r)) = true
      · rw [if_pos hb]
        exact Nat.le_succ_of_le (ih 8 true)
      · rw [if_neg hb]
        simpa using ih 0 (isWordChar c)

theorem ws_skip {w : Char} (hw : isWsB w = true) (pw : Bool) (r : List Char) :
    remAux 0 pw (w :: r) = w :: remAux 0 false r := by
  rw [remAux_zero, ws_tokHere_false hw]
  simp [ws_not_word hw]

theorem lead_ws : ∀ (pfx : List Char), (∀ x ∈ pfx, isWsB x = true) →
    ∀ r, remAux 0 false (pfx ++ r) = pfx ++ remAux 0 false r := by
  intro pfx
  induction pfx with
  | nil => intro _ r; rfl
  | cons w p ih =>
    intro h r
    have hw : isWsB w = true := h w (List.mem_cons_self ..)
    rw [List.cons_append, ws_skip hw, ih (fun x hx => h x (List.mem_cons_of_mem _ hx)) r,
      List.cons_append]

theorem beginsWith_append : ∀ {t l : List Char}, beginsWith t l = true →
    ∀ (s : List Char), beginsWith t (l ++ s) = true := by
  intro t
  induction t with
  | nil => intro l _ s; rfl
  | cons p ps ih =>
    intro l h s
    cases l with
    | nil => simp [beginsWith] at h
    | cons c cs =>
      simp only [List.cons_append, beginsWith, Bool.and_eq_true] at h ⊢
      exact ⟨h.1, ih h.2 s⟩

theorem beginsWith_length : ∀ {t l : List Char}, beginsWith t l = true →
    t.length ≤ l.length := by
  intro t
  induction t with
  | nil => intro l _; simp
  | cons p ps ih =>
    intro l h
    cases l with
    | nil => simp [beginsWith] at h
    | cons c cs =>
      simp only [beginsWith, Bool.and_eq_true] at h
      simpa [Nat.succ_le_succ_iff] using ih h.2

theorem tokHere_append {l : List Char} (h : tokHere l = true) (s : List Char)
    (hs : headNonWord s) : tokHere (l ++ s) = true := by
  simp only [tokHere, Bool.and_eq_true, Bool.or_eq_true] at h ⊢
  obtain ⟨hb, ha⟩ := h
  have hlen : 9 ≤ l.length := by
    rcases hb with hb | hb
    · simpa [showMoreTok_eq] using beginsWith_length hb
    · simpa [showLessTok_eq] using beginsWith_length hb
  refine ⟨?_, ?_⟩
  · rcases hb with hb | hb
    · exact Or.inl (beginsWith_append hb s)
    · exact Or.inr (beginsWith_append hb s)
  · rw [List.drop_append_of_le_length hlen]
    cases hd : l.drop 9 with
    | nil =>
      simp only [List.nil_append]
      cases s with
      | nil => rfl
      | cons d ds =>
        have hdw : isWordChar d = false := hs
        simp [boundaryAfterB, hdw]
    | cons e es =>
      rw [hd] at ha
      simpa [boundaryAfterB] using ha

theorem remAux_strip_sfx : ∀ (m : List Char) (pw : Bool) (s : List Char), headNonWord s →
    remAux 0 pw (m ++ s) = m ++ s → remAux 0 pw m = m := by
  intro m
  induction m with
  | nil => intro pw s _ _; rfl
  | cons c m2 ih =>
    intro pw s hs h
    rw [List.cons_append, remAux_zero] at h
    by_cases hb : (!pw && tokHere (c :: (m2 ++ s))) = true
    · rw [if_pos hb] at h
      exfalso
      have h1 := remAux_length 8 true (m2 ++ s)
      rw [h] at h1
      simp only [List.length_cons] at h1
      omega
    · rw [if_neg hb] at h
      injection h with h1 h2
      have h3 := ih (isWordChar c) s hs h2
      rw [remAux_zero]
      have hb2 : (!pw && tokHere (c :: m2)) = false := by
        cases hbv : (!pw && tokHere (c :: m2)) with
        | false => rfl
        | true =>
          exfalso
          simp only [Bool.and_eq_true] at hbv
          have ht := tokHere_append hbv.2 s hs
          rw [show (c :: m2) ++ s = c :: (m2 ++ s) from rfl] at ht
          exact hb (by simp [hbv.1, ht])
      rw [hb2]
      simp only [Bool.false_eq_true, if_false]
      rw [h3]

theorem removeTokens_trim {l : List Char} (h : remAux 0 false l = l) :
    remAux 0 false (trimWs l) = trimWs l := by
  have e1 : remAux 0 false l = l.takeWhile isWsB ++ remAux 0 false (l.dropWhile isWsB) := by
    conv_lhs => rw [← List.takeWhile_append_dropWhile isWsB l]
    exact lead_ws _ (fun x hx => List.mem_takeWhile_imp hx) _
  have e2 : l.takeWhile isWsB ++ remAux 0 false (l.dropWhile isWsB) =
      l.takeWhile isWsB ++ l.dropWhile isWsB := by
    rw [← e1, h]
    exact (List.takeWhile_append_dropWhile isWsB l).symm
  have h2 : remAux 0 false (l.dropWhile isWsB) = l.dropWhile isWsB :=
    List.append_cancel_left e2
  obtain ⟨sfx, hd, hws⟩ := trim_decomp l
  rw [hd] at h2
  have hhs : headNonWord sfx := by
    cases sfx with
    | nil => trivial
    | cons d ds => exact ws_not_word (hws d (List.mem_cons_self ..))
  exact remAux_strip_sfx (trimWs l) false sfx hhs h2

/-! ## Claims C1 and C2 -/

/-- Claim C1 counterexample: normalization is not idempotent.  On the input
"Desc Show more here" the token removal leaves two adjacent spaces, and a
second application collapses them, so normalize(normalize(s)) differs from
normalize(s). -/
theorem normalize_not_idempotent_cx :
    normalize (normalize (strToL "Desc Show more here")) ≠
      normalize (strToL "Desc Show more here") := by decide

/-- Claim C1 (amended): normalization is idempotent on every input on which
the token-removal pass removes nothing, that is, whenever removing the
boilerplate tokens from the whitespace-collapsed input leaves it unchanged;
in general a removal can leave a doubled space that only a second
application collapses. -/
theorem normalize_idempotent_of_no_token_removed (s : List Char)
    (h : removeTokens (collapseWs s) = collapseWs s) :
    normalize (normalize s) = normalize s := by
  have hc : collapsedB (collapseWs s) = true := collapsedB_collapse s
  have h1 : normalize s = trimWs (collapseWs s) := by
    rw [normalize, h]
  have hm_coll : collapseWs (trimWs (collapseWs s)) = trimWs (collapseWs s) := by
    apply collapse_of_collapsedB
    obtain ⟨sfx, hd, _⟩ := trim_decomp (collapseWs s)
    have h2 : collapsedB ((collapseWs s).dropWhile isWsB) = true := collapsedB_dropWhile _ hc
    rw [hd] at h2
    exact collapsedB_append_left _ _ h2
  have hm_rem : removeTokens (trimWs (collapseWs s)) = trimWs (collapseWs s) :=
    removeTokens_trim h
  have hm_trim : trimWs (trimWs (collapseWs s)) = trimWs (collapseWs s) := trim_idem _
  rw [h1, normalize, hm_coll, hm_rem, hm_trim]

/-- Witness for the amended claim C1 at the concrete input "a  b c", which
contains no boilerplate token. -/
theorem normalize_idempotent_of_no_token_removed_wit :
    removeTokens (collapseWs (strToL "a  b c")) = collapseWs (strToL "a  b c") ∧
    normalize (normalize (strToL "a  b c")) = normalize (strToL "a  b c") :=
  ⟨by decide, normalize_idempotent_of_no_token_removed _ (by decide)⟩

/-- Claim C2 counterexample: normalize("Desc Show more here") is not
"Desc here": the spaces on both sides of the removed token are kept, so the
result has two adjacent spaces. -/
theorem normalize_example_cx :
    normalize (strToL "Desc Show more here") ≠ strToL "Desc here" := by decide

/-- Claim C2 (amended): normalization removes the occurrences of "Show more"
and "Show less" that are delimited by word boundaries, without merging the
surrounding whitespace — normalize("Desc Show more here") is "Desc  here"
with a doubled space — while an occurrence attached to a word character is
kept unchanged. -/
theorem normalize_token_removal_behavior :
    normalize (strToL "Desc Show more here") = strToL "Desc  here" ∧
    normalize (strToL "Intro Show less end") = strToL "Intro  end" ∧
    normalize (strToL "Show more") = strToL "" ∧
    normalize (strToL "xShow more") = strToL "xShow more" := by decide

/-! ### Lines of the exported document -/

theorem splitNl_cons_not_nl {c : Char} (hc : c ≠ '\n') (rest : List Char) :
    splitNl (c :: rest) =
      match splitNl rest with
      | [] => [[c]]
      | g :: gs => (c :: g) :: gs := by
  simp only [splitNl, if_neg hc]

theorem splitNl_append_nl {x : List Char} (hx : ∀ c ∈ x, c ≠ '\n') (r : List Char) :
    splitNl (x ++ '\n' :: r) = x :: splitNl r := by
  induction x with
  | nil => simp [splitNl]
  | cons c x2 ih =>
    have hc : c ≠ '\n' := hx c (List.mem_cons_self ..)
    have ih2 := ih (fun d hd => hx d (List.mem_cons_of_mem _ hd))
    rw [List.cons_append, splitNl_cons_not_nl hc, ih2]

theorem splitNl_single {x : List Char} (hx : ∀ c ∈ x, c ≠ '\n') : splitNl x = [x] := by
  induction x with
  | nil => rfl
  | cons c x2 ih =>
    have hc : c ≠ '\n' := hx c (List.mem_cons_self ..)
    have ih2 := ih (fun d hd => hx d (List.mem_cons_of_mem _ hd))
    rw [splitNl_cons_not_nl hc, ih2]

theorem splitNl_joinWith : ∀ (rows : List (List Char)), rows ≠ [] →
    (∀ row ∈ rows, ∀ c ∈ row, c ≠ '\n') → splitNl (joinWith '\n' rows) = rows
  | [], h, _ => absurd rfl h
  | [x], _, hnl => by
    rw [joinWith]
    exact splitNl_single (hnl x (List.mem_cons_self ..))
  | x :: y :: ys, _, hnl => by
    rw [joinWith, splitNl_append_nl (hnl x (List.mem_cons_self ..))]
    rw [splitNl_joinWith (y :: ys) (by simp) (fun row hr => hnl row (List.mem_cons_of_mem _ hr))]

theorem mem_joinWith {c : Char} (sep : Char) :
    ∀ (xs : List (List Char)), c ∈ joinWith sep xs → c = sep ∨ ∃ x ∈ xs, c ∈ x
  | [], h => by simp [joinWith] at h
  | [x], h => by
    rw [joinWith] at h
    exact Or.inr ⟨x, List.mem_cons_self .., h⟩
  | x :: y :: ys, h => by
    rw [joinWith] at h
    rcases List.mem_append.mp h with h1 | h1
    · exact Or.inr ⟨x, List.mem_cons_self .., h1⟩
    · rcases List.mem_cons.mp h1 with rfl | h2
      · exact Or.inl rfl
      · rcases mem_joinWith sep (y :: ys) h2 with h3 | ⟨z, hz, hcz⟩
        · exact Or.inl h3
        · exact Or.inr ⟨z, List.mem_cons_of_mem _ hz, hcz⟩

theorem lookup_val_mem {row : Row} {k : String} {v : List Char} :
    row.lookup k = some v → ∃ p ∈ row, p.2 = v := by
  induction row with
  | nil => intro h; simp [List.lookup] at h
  | cons kv rest ih =>
    intro h
    obtain ⟨a, b⟩ := kv
    by_cases he : (k == a) = true
    · simp only [List.lookup, he] at h
      injection h with h1
      exact ⟨(a, b), List.mem_cons_self .., h1⟩
    · rw [Bool.not_eq_true] at he
      simp only [List.lookup, he] at h
      obtain ⟨p, hp, hpv⟩ := ih h
      exact ⟨p, List.mem_cons_of_mem _ hp, hpv⟩

theorem undefined_no_nl : ∀ c ∈ strToL "undefined", c ≠ '\n' := by decide

theorem rowLine_no_nl (keys : List String) (row : Row)
    (hrow : ∀ kv ∈ row, ∀ c ∈ kv.2, c ≠ '\n') :
    ∀ c ∈ rowLine keys row, c ≠ '\n' := by
  intro c hc
  rcases mem_joinWith ',' _ hc with rfl | ⟨x, hx, hcx⟩
  · decide
  · obtain ⟨k, _, rfl⟩ := List.mem_map.mp hx
    have hcx2 : c = '"' ∨ c ∈ getField row k := by
      simp only [quoteField, List.mem_cons, List.mem_append, List.mem_singleton] at hcx
      tauto
    rcases hcx2 with rfl | hcv
    · decide
    · rw [getField] at hcv
      cases hl : row.lookup k with
      | none =>
        rw [hl] at hcv
        exact undefined_no_nl c hcv
      | some v =>
        rw [hl] at hcv
        obtain ⟨p, hp, hpv⟩ := lookup_val_mem hl
        exact hrow p hp c (hpv ▸ hcv)

/-! ## Claim C4 -/

/-- Claim C4 counterexample: exporting an empty record list does not produce
a header-only document; convertToCsv reads the key set from the nonexistent
first record and fails (a thrown TypeError, modelled as none). -/
theorem convertToCsv_nil_cx : convertToCsv [] = none := rfl

/-- Claim C4 (amended): export of an empty record list raises an error
instead of producing a header-only document, and the empty list is the only
input on which the exporter fails. -/
theorem convertToCsv_eq_none_iff_nil (data : List Row) :
    convertToCsv data = none ↔ data = [] := by
  cases data <;> simp [convertToCsv]

/-! ## Claim C6 -/

/-- Claim C6 counterexample: a single record whose title contains a newline
yields a three-line document, not the claimed N + 1 = 2 lines. -/
theorem csv_line_count_cx :
    convertToCsv [[("title", strToL "A\nB"), ("company", strToL "B"),
        ("location", strToL "C"), ("description", strToL "D")]] =
      some (strToL "title,company,location,description\n\"A\nB\",\"B\",\"C\",\"D\"") ∧
    (splitNl (strToL "title,company,location,description\n\"A\nB\",\"B\",\"C\",\"D\"")).length ≠
      1 + 1 := by
  refine ⟨by decide, by decide⟩

/-- Claim C6 (amended): for every nonempty list of JobRecords with the four
fixed fields, none of whose field values contains a newline character, the
exported document consists of the header line
title,company,location,description followed by one quoted comma-joined row
per record in record order, N + 1 lines in all. -/
theorem csv_lines_structure (data : List Row) (hne : data ≠ [])
    (hkeys : ∀ row ∈ data, row.map Prod.fst = ["title", "company", "location", "description"])
    (hnl : ∀ row ∈ data, ∀ kv ∈ row, ∀ c ∈ kv.2, c ≠ '\n') :
    convertToCsv data =
      some (joinWith '\n' (strToL "title,company,location,description" ::
        data.map (rowLine ["title", "company", "location", "description"]))) ∧
    splitNl (joinWith '\n' (strToL "title,company,location,description" ::
        data.map (rowLine ["title", "company", "location", "description"]))) =
      strToL "title,company,location,description" ::
        data.map (rowLine ["title", "company", "location", "description"]) ∧
    (splitNl (joinWith '\n' (strToL "title,company,location,description" ::
        data.map (rowLine ["title", "company", "location", "description"])))).length =
      data.length + 1 := by
  obtain ⟨f, rest, rfl⟩ : ∃ f r, data = f :: r := by
    cases data with
    | nil => exact absurd rfl hne
    | cons f r => exact ⟨f, r, rfl⟩
  have hk1 : f.map Prod.fst = ["title", "company", "location", "description"] :=
    hkeys f (List.mem_cons_self ..)
  have hhdr : headerLine ["title", "company", "location", "description"] =
      strToL "title,company,location,description" := by decide
  have hrows : ∀ row ∈ (strToL "title,company,location,description" ::
      (f :: rest).map (rowLine ["title", "company", "location", "description"])),
      ∀ c ∈ row, c ≠ '\n' := by
    intro row hrow
    rcases List.mem_cons.mp hrow with rfl | hrow2
    · decide
    · obtain ⟨r, hr, rfl⟩ := List.mem_map.mp hrow2
      exact rowLine_no_nl _ r (hnl r hr)
  refine ⟨?_, ?_, ?_⟩
  · simp only [convertToCsv, hk1, hhdr]
  · exact splitNl_joinWith _ (by simp) hrows
  · rw [splitNl_joinWith _ (by simp) hrows]
    simp

/-- Witness for the amended claim C6 at the two-record example of the
specification. -/
theorem csv_lines_structure_wit :
    exampleRecords ≠ [] ∧
    convertToCsv exampleRecords =
      some (joinWith '\n' (strToL "title,company,location,description" ::
        exampleRecords.map (rowLine ["title", "company", "location", "description"]))) ∧
    convertToCsv exampleRecords =
      some (strToL "title,company,location,description\n\"A\",\"B\",\"C\",\"D\"\n\"E\",\"F\",\"G\",\"H\"") :=
  ⟨by decide, (csv_lines_structure exampleRecords (by decide) (by decide) (by decide)).1,
    by decide⟩

/-! ## Claim C10 -/

theorem lookup_filter_ne {k2 k : String} (hne : k2 ≠ k) :
    ∀ (r : Row), (r.filter (fun kv => !(kv.1 == k))).lookup k2 = r.lookup k2 := by
  intro r
  induction r with
  | nil => rfl
  | cons kv rest ih =>
    obtain ⟨a, b⟩ := kv
    by_cases ha : (a == k) = true
    · have hdrop : (!((a, b).1 == k)) = false := by simp [ha]
      rw [List.filter_cons_of_neg (by simp [hdrop])]
      have ha2 : a = k := beq_iff_eq.mp ha
      have hk2a : (k2 == a) = false := by
        rw [beq_eq_false_iff_ne]
        exact fun hh => hne (hh.trans ha2)
      rw [ih]
      simp [List.lookup, hk2a]
    · have hkeep : (!((a, b).1 == k)) = true := by
        simp only [Bool.not_eq_true'] at ha ⊢
        simpa using ha
      rw [List.filter_cons_of_pos (by simpa using hkeep)]
      by_cases he : (k2 == a) = true
      · simp [List.lookup, he]
      · rw [Bool.not_eq_true] at he
        simp [List.lookup, he, ih]

theorem getField_filter_ne {k2 k : String} (hne : k2 ≠ k) (r : Row) :
    getField (r.filter (fun kv => !(kv.1 == k))) k2 = getField r k2 := by
  rw [getField, getField, lookup_filter_ne hne]

theorem rowLine_filter (keys : List String) (k : String) (hk : k ∉ keys) (r : Row) :
    rowLine keys (r.filter (fun kv => !(kv.1 == k))) = rowLine keys r := by
  rw [rowLine, rowLine]
  congr 1
  apply List.map_congr_left
  intro k2 hk2
  have hne : k2 ≠ k := fun hh => hk (hh ▸ hk2)
  rw [getField_filter_ne hne]

theorem getField_append_sentinel (r : Row) (k2 k3 : String) :
    getField (r ++ [(k2, strToL "undefined")]) k3 = getField r k3 := by
  induction r with
  | nil =>
    rw [List.nil_append, getField, getField]
    by_cases he : (k3 == k2) = true
    · simp [List.lookup, he]
    · rw [Bool.not_eq_true] at he
      simp [List.lookup, he]
  | cons kv rest ih =>
    obtain ⟨a, b⟩ := kv
    rw [List.cons_append, getField, getField]
    by_cases he : (k3 == a) = true
    · simp [List.lookup, he]
    · rw [Bool.not_eq_true] at he
      simp only [List.lookup, he]
      exact ih

/-- Claim C10: the exporter projects every record onto the key set of the
first record: the output is unchanged when keys absent from the first record
are erased from later records, and a key of the first record that a record
lacks reads as the quoted literal text undefined, exactly as if the record
carried the value "undefined" for it. -/
theorem csv_first_record_projection (f : Row) (rest : List Row) (k k2 : String) (row : Row)
    (hk : k ∉ f.map Prod.fst) (hrow : row.lookup k2 = none) :
    convertToCsv (f :: rest) =
      convertToCsv (f :: rest.map (fun r => r.filter (fun kv => !(kv.1 == k)))) ∧
    getField row k2 = strToL "undefined" ∧
    rowLine (f.map Prod.fst) (row ++ [(k2, strToL "undefined")]) =
      rowLine (f.map Prod.fst) row := by
  refine ⟨?_, ?_, ?_⟩
  · simp only [convertToCsv, List.map_cons, List.map_map]
    congr 3
    congr 1
    apply List.map_congr_left
    intro r _
    exact (rowLine_filter _ k hk r).symm
  · rw [getField, hrow]
    rfl
  · rw [rowLine, rowLine]
    congr 1
    apply List.map_congr_left
    intro k3 _
    rw [getField_append_sentinel]

/-- Witness for claim C10: a key extra present only in the second record is
omitted, and the missing extra key of the second record reads as
undefined. -/
theorem csv_first_record_projection_wit :
    ("extra" ∉ ([("title", strToL "T"), ("company", strToL "B"), ("location", strToL "C"),
        ("description", strToL "D")] : Row).map Prod.fst) ∧
    (([("title", strToL "U")] : Row).lookup "extra" = none) ∧
    getField ([("title", strToL "U")] : Row) "extra" = strToL "undefined" :=
  ⟨by decide, by decide,
    (csv_first_record_projection
      [("title", strToL "T"), ("company", strToL "B"), ("location", strToL "C"),
        ("description", strToL "D")]
      [[("title", strToL "U"), ("extra", strToL "X")]] "extra" "extra"
      [("title", strToL "U")] (by decide) (by decide)).2.1⟩

/-! ## Claim C8 -/

theorem scrapeFields_keys (q : String → Option (List Char)) :
    ∀ (sels : List (String × String)) (fs : Row), scrapeFields q sels = some fs →
      fs.map Prod.fst = sels.map Prod.fst := by
  intro sels
  induction sels with
  | nil =>
    intro fs h
    simp only [scrapeFields, Option.some.injEq] at h
    rw [← h]
    rfl
  | cons ks rest ih =>
    intro fs h
    obtain ⟨k, sel⟩ := ks
    simp only [scrapeFields] at h
    cases hq : q sel with
    | none => rw [hq] at h; exact absurd h (by simp)
    | some v =>
      rw [hq] at h
      cases ht : scrapeFields q rest with
      | none => rw [ht] at h; exact absurd h (by simp)
      | some tail =>
        rw [ht] at h
        simp only [Option.map_some', Option.some.injEq] at h
        rw [← h]
        simp [ih tail ht]

theorem setDescNorm_keys (job : Row) : (setDescNorm job).map Prod.fst = job.map Prod.fst := by
  rw [setDescNorm, List.map_map]
  apply List.map_congr_left
  intro kv _
  by_cases h : kv.1 = "description"
  · simp [h]
  · simp [h]

/-- Claim C8: every JobRecord produced by the detail extractor has exactly
the keys title, company, location, description in that order, and the
exported document built from such records carries exactly that key list,
comma-joined, as its header line. -/
theorem jobRecord_keys_match_header (g : Bool) (q : String → Option (List Char))
    (job : Row) (rest : List Row) (h : scrapeJobDetails g q = some job) :
    job.map Prod.fst = ["title", "company", "location", "description"] ∧
    convertToCsv (job :: rest) =
      some (joinWith '\n' (strToL "title,company,location,description" ::
        (job :: rest).map (rowLine ["title", "company", "location", "description"]))) := by
  have hkeys : job.map Prod.fst = ["title", "company", "location", "description"] := by
    rw [scrapeJobDetails] at h
    cases g with
    | false => simp at h
    | true =>
      rw [if_pos rfl] at h
      cases hf : scrapeFields q selectors with
      | none => rw [hf] at h; exact absurd h (by simp)
      | some fs =>
        rw [hf] at h
        simp only [Option.map_some', Option.some.injEq] at h
        rw [← h, setDescNorm_keys, scrapeFields_keys q selectors fs hf]
        rfl
  have hhdr : headerLine ["title", "company", "location", "description"] =
      strToL "title,company,location,description" := by decide
  refine ⟨hkeys, ?_⟩
  simp only [convertToCsv, hkeys, hhdr]

/-- Witness for claim C8 at a concrete page on which every selector answers
with the text " T ". -/
theorem jobRecord_keys_match_header_wit :
    scrapeJobDetails true (fun _ => some (strToL " T ")) =
      some [("title", strToL "T"), ("company", strToL "T"),
        ("location", strToL "T"), ("description", strToL "T")] ∧
    ([("title", strToL "T"), ("company", strToL "T"),
        ("location", strToL "T"), ("description", strToL "T")] : Row).map Prod.fst =
      ["title", "company", "location", "description"] :=
  ⟨by decide,
    (jobRecord_keys_match_header true (fun _ => some (strToL " T "))
      [("title", strToL "T"), ("company", strToL "T"),
        ("location", strToL "T"), ("description", strToL "T")] [] (by decide)).1⟩

/-! ## Claims C3, C5, C7, C9: the control flow of main -/

theorem scrapeFields_none (q : String → Option (List Char)) :
    ∀ (sels : List (String × String)) (k sel : String), (k, sel) ∈ sels → q sel = none →
      scrapeFields q sels = none := by
  intro sels
  induction sels with
  | nil => intro k sel h _; exact absurd h (by simp)
  | cons ks rest ih =>
    intro k sel hmem hq
    rcases List.mem_cons.mp hmem with heq | hmem2
    · subst heq
      simp [scrapeFields, hq]
    · obtain ⟨k2, sel2⟩ := ks
      simp only [scrapeFields]
      cases hq2 : q sel2 with
      | none => rfl
      | some v => rw [ih k sel hmem2 hq]; rfl

theorem scrapeJobDetails_sel_none {q : String → Option (List Char)} (g : Bool)
    {k sel : String} (hmem : (k, sel) ∈ selectors) (hq : q sel = none) :
    scrapeJobDetails g q = none := by
  rw [scrapeJobDetails]
  cases g with
  | false => rfl
  | true => rw [if_pos rfl, scrapeFields_none q selectors k sel hmem hq]; rfl

theorem scrapeAll_none (env : Env) :
    ∀ (links : List String) (link : String), link ∈ links →
      scrapeJobDetails (env.detailGotoOk link) (env.pageOf link) = none →
      scrapeAll env links = none := by
  intro links
  induction links with
  | nil => intro link h _; exact absurd h (by simp)
  | cons l2 rest ih =>
    intro link hmem hfail
    rcases List.mem_cons.mp hmem with heq | hmem2
    · subst heq
      simp [scrapeAll, hfail]
    · simp only [scrapeAll]
      cases hs : scrapeJobDetails (env.detailGotoOk l2) (env.pageOf l2) with
      | none => rfl
      | some job => rw [ih link hmem2 hfail]; rfl

/-- Claim C3 counterexample: a run in which the browser opened but the single
extraction fails (no selector matches on the one detail page) ends without
browser.close() having run — there is no try/finally around the loop, so the
rejection skips the close call. -/
theorem browser_not_closed_on_extraction_failure_cx :
    (main ⟨true, true, [⟨true, "j1"⟩], fun _ => true, fun _ _ => none, true⟩).browserOpened =
      true ∧
    (main ⟨true, true, [⟨true, "j1"⟩], fun _ => true, fun _ _ => none, true⟩).browserClosed =
      false :=
  ⟨rfl, rfl⟩

/-- Claim C3 (amended): browser.close() runs exactly when launch, the search
navigation and every per-link extraction succeed; a failure anywhere before
the end of the loop aborts main without closing the browser. -/
theorem browserClosed_iff_scrape_ok (env : Env) :
    (main env).browserClosed = true ↔
      env.launchOk = true ∧ env.searchGotoOk = true ∧
        scrapeAll env (collectLinks env.searchAnchors) ≠ none := by
  rw [main]
  cases hl : env.launchOk with
  | false => simp
  | true =>
    cases hs : env.searchGotoOk with
    | false => simp
    | true =>
      simp only [Bool.not_true, Bool.false_eq_true, if_false]
      cases hsc : scrapeAll env (collectLinks env.searchAnchors) with
      | none => simp
      | some jobs =>
        cases hc : convertToCsv jobs with
        | none => simp [hc]
        | some doc =>
          cases hw : env.writeOk <;> simp [hc, hw]

/-- Claim C5: if one of the four field selectors matches nothing on a listed
detail page, the extraction of that record fails, the run aborts (the promise of main
rejects) and no export happens: nothing is written. -/
theorem selector_failure_aborts_run (env : Env) (link : String) (k sel : String)
    (h1 : env.launchOk = true) (h2 : env.searchGotoOk = true)
    (hmem : link ∈ collectLinks env.searchAnchors)
    (hsel : (k, sel) ∈ selectors) (hq : env.pageOf link sel = none) :
    scrapeJobDetails (env.detailGotoOk link) (env.pageOf link) = none ∧
    (main env).fileWritten = none ∧ (main env).crashed = true := by
  have hfail : scrapeJobDetails (env.detailGotoOk link) (env.pageOf link) = none :=
    scrapeJobDetails_sel_none (env.detailGotoOk link) hsel hq
  have habort : scrapeAll env (collectLinks env.searchAnchors) = none :=
    scrapeAll_none env _ link hmem hfail
  refine ⟨hfail, ?_, ?_⟩ <;> simp [main, h1, h2, habort]

/-- Witness for claim C5: a single listed page on which no selector matches
anything. -/
theorem selector_failure_aborts_run_wit :
    ("j1" ∈ collectLinks [⟨true, "j1"⟩]) ∧
    (("title", "h1.topcard__title") ∈ selectors) ∧
    (main ⟨true, true, [⟨true, "j1"⟩], fun _ => true, fun _ _ => none, false⟩).fileWritten =
      none ∧
    (main ⟨true, true, [⟨true, "j1"⟩], fun _ => true, fun _ _ => none, false⟩).crashed = true :=
  ⟨by decide, by decide,
    (selector_failure_aborts_run ⟨true, true, [⟨true, "j1"⟩], fun _ => true, fun _ _ => none,
        false⟩ "j1" "title" "h1.topcard__title" rfl rfl (by decide) (by decide) rfl).2⟩

/-- Claim C7: a failure of the export step (the CSV conversion or the file
write, both inside the try block) is caught and logged as a diagnostic; it
never crashes the run. -/
theorem write_failure_caught (env : Env) (jobs : List Row)
    (h1 : env.launchOk = true) (h2 : env.searchGotoOk = true)
    (h3 : scrapeAll env (collectLinks env.searchAnchors) = some jobs)
    (h4 : env.writeOk = false) :
    (main env).crashed = false ∧ (main env).errorLogged = true := by
  cases hc : convertToCsv jobs with
  | none => refine ⟨?_, ?_⟩ <;> simp [main, h1, h2, h3, hc]
  | some doc => refine ⟨?_, ?_⟩ <;> simp [main, h1, h2, h3, hc, h4]

/-- Witness for claim C7: a run with one successfully scraped page whose file
write fails. -/
theorem write_failure_caught_wit :
    scrapeAll ⟨true, true, [⟨true, "j1"⟩], fun _ => true, fun _ _ => some (strToL "T"),
        false⟩ (collectLinks [⟨true, "j1"⟩]) =
      some [[("title", strToL "T"), ("company", strToL "T"),
        ("location", strToL "T"), ("description", strToL "T")]] ∧
    (main ⟨true, true, [⟨true, "j1"⟩], fun _ => true, fun _ _ => some (strToL "T"),
        false⟩).crashed = false ∧
    (main ⟨true, true, [⟨true, "j1"⟩], fun _ => true, fun _ _ => some (strToL "T"),
        false⟩).errorLogged = true :=
  ⟨by decide,
    write_failure_caught
      ⟨true, true, [⟨true, "j1"⟩], fun _ => true, fun _ _ => some (strToL "T"), false⟩
      [[("title", strToL "T"), ("company", strToL "T"),
        ("location", strToL "T"), ("description", strToL "T")]]
      rfl rfl (by decide) rfl⟩

/-- Claim C9: when no anchor on the search-results page matches the listing
card marker, link collection yields the empty list (not an error) and the
extraction loop completes with zero records. -/
theorem collectLinks_empty_yields_no_records (env : Env)
    (h : ∀ a ∈ env.searchAnchors, a.isCard = false) :
    collectLinks env.searchAnchors = [] ∧
    scrapeAll env (collectLinks env.searchAnchors) = some [] := by
  have hempty : collectLinks env.searchAnchors = [] := by
    rw [collectLinks, List.filter_eq_nil_iff.mpr (fun a ha => by simp [h a ha])]
    rfl
  exact ⟨hempty, by rw [hempty]; rfl⟩

/-- Witness for claim C9: a search page with one non-card anchor. -/
theorem collectLinks_empty_yields_no_records_wit :
    (∀ a ∈ ([⟨false, "x"⟩] : List Anchor), a.isCard = false) ∧
    collectLinks ([⟨false, "x"⟩] : List Anchor) = [] :=
  ⟨by decide,
    (collectLinks_empty_yields_no_records
      ⟨true, true, [⟨false, "x"⟩], fun _ => true, fun _ _ => none, true⟩ (by decide)).1⟩

end Scraper
